import Mathlib

/-!
# Verification of the chained `HashMap` in `src/task1/task1.h`

This file gives a shallow embedding of the C++ `HashMap` template
(separate chaining over a `std::vector<std::list<MyPair>>`, golden-ratio
grow/shrink rehashing) and proves the specification claims about it.

Modelling conventions:
* `std::vector<std::list<MyPair>>` becomes `List (List (K × V))`;
  `size_t` counters become `Nat`.
* The stored hash functor becomes a field `hasher : K → Nat`;
  `bucketIndex` is `hasher key % data.length` exactly as in the source.
* The floating point constant `MaxLoadFactor = 1.618033988` is modelled as
  the exact rational `1618033988 / 10^9`, so the grow/shrink targets
  `static_cast<size_t>(keyCount * MaxLoadFactor + 1)` become
  `keyCount * 1618033988 / 1000000000 + 1` (`Nat` division is the floor,
  and `⌊x + 1⌋ = ⌊x⌋ + 1`), and the shrink test
  `keyCount * MinLoadFactor < bucket.size()` (with
  `MinLoadFactor = MaxLoadFactor²`) becomes the exact integer comparison
  `keyCount * 1618033988 * 1618033988 < len * 10^18`.
* `at` throws `std::out_of_range`; we model it as an `Option`-returning
  lookup where `none` is the NotFound outcome.
* The C++ `rehash` reinserts the old entries through `insert`, whose grow
  check provably never fires during reinsertion at any call site (every
  call passes a bucket count strictly larger than the number of reinserted
  entries), so reinsertion is embedded via the check-free `insertCore`;
  the lemma `foldl_insert_eq_foldl_insertCore` makes that vacuity precise.
-/

set_option maxRecDepth 10000
set_option linter.unusedSectionVars false

namespace Task1

variable {K V : Type} [DecidableEq K] [Inhabited K] [Inhabited V]

/-- The `HashMap` state: the hash functor `hasher`, the bucket array
`data` (`std::vector<std::list<MyPair>>`) and the live entry count
`keyCount`. -/
structure HashMap (K V : Type) where
  hasher : K → Nat
  data : List (List (K × V))
  keyCount : Nat

namespace HashMap

/-- `bucketIndex` (task1.h line 31): `hasher(key) % data.size()`. -/
def bucketIndex (m : HashMap K V) (key : K) : Nat :=
  m.hasher key % m.data.length

/-- Capacity of a map: the number of buckets, `data.size()`. -/
def capacity (m : HashMap K V) : Nat :=
  m.data.length

/-- The grow/shrink rehash target
`static_cast<size_t>(keyCount * MaxLoadFactor + 1)` with
`MaxLoadFactor = 1.618033988`: the floor of `k * 1.618033988` plus one. -/
def newCapacity (k : Nat) : Nat :=
  k * 1618033988 / 1000000000 + 1

/-- The shrink test of `erase` (line 119):
`keyCount * MinLoadFactor < bucket.size()` with
`MinLoadFactor = 1.618033988²`, as an exact integer comparison. -/
def shrinkNeeded (k len : Nat) : Prop :=
  k * 1618033988 * 1618033988 < len * 1000000000000000000

instance (k len : Nat) : Decidable (shrinkNeeded k len) :=
  inferInstanceAs (Decidable (_ < _))

/-- The key comparison `element.first == key` used by every chain scan. -/
def keyMatches (key : K) (e : K × V) : Bool :=
  decide (e.1 = key)

/-- The body of `insert` (lines 92-100) without the grow check: look up the
target chain; if the key is already there, return the map unchanged,
otherwise append the entry to the chain and bump `keyCount`. -/
def insertCore (m : HashMap K V) (v : K × V) : HashMap K V :=
  let idx := m.bucketIndex v.1
  let chain := m.data.getD idx []
  if chain.any (keyMatches v.1) then m
  else { m with data := m.data.set idx (chain ++ [v]), keyCount := m.keyCount + 1 }

/-- `rehash` (lines 20-29): move the buckets out, reset the count, allocate
`bucketSize` fresh empty buckets, and reinsert every element bucket by
bucket, element by element.  Reinsertion uses `insertCore`; the grow check
inside the C++ `insert` never fires here (see
`foldl_insert_eq_foldl_insertCore`). -/
def rehash (m : HashMap K V) (bucketSize : Nat) : HashMap K V :=
  m.data.flatten.foldl insertCore
    { hasher := m.hasher, data := List.replicate bucketSize [], keyCount := 0 }

/-- `insert` (lines 91-104): no-op if the key is already in its target
chain (first write wins); otherwise append, bump `keyCount`, and grow
rehash to `newCapacity keyCount` when `keyCount >= data.size()`. -/
def insert (m : HashMap K V) (v : K × V) : HashMap K V :=
  let idx := m.bucketIndex v.1
  let chain := m.data.getD idx []
  if chain.any (keyMatches v.1) then m
  else
    let m' : HashMap K V :=
      { m with data := m.data.set idx (chain ++ [v]), keyCount := m.keyCount + 1 }
    if m'.data.length ≤ m'.keyCount then rehash m' (newCapacity m'.keyCount) else m'

/-- The body of `erase` (lines 107-118) without the shrink check: remove
the first entry of the target chain matching the key (no-op when absent)
and decrement `keyCount`. -/
def eraseCore (m : HashMap K V) (key : K) : HashMap K V :=
  let idx := m.bucketIndex key
  let chain := m.data.getD idx []
  if chain.any (keyMatches key) then
    { m with data := m.data.set idx (chain.eraseP (keyMatches key)),
             keyCount := m.keyCount - 1 }
  else m

/-- `erase` (lines 106-123): locate the chain, return if the key is absent,
otherwise remove the entry, decrement `keyCount`, and shrink rehash to
`newCapacity keyCount` when `keyCount * MinLoadFactor` is strictly below
the post-removal length of the chain just modified. -/
def erase (m : HashMap K V) (key : K) : HashMap K V :=
  let idx := m.bucketIndex key
  let chain := m.data.getD idx []
  if chain.any (keyMatches key) then
    let chain' := chain.eraseP (keyMatches key)
    let m' : HashMap K V :=
      { m with data := m.data.set idx chain', keyCount := m.keyCount - 1 }
    if shrinkNeeded m'.keyCount chain'.length then rehash m' (newCapacity m'.keyCount)
    else m'
  else m

/-- `at` (lines 134-144): scan the target chain and return the value of the
first entry matching the key; `none` models the `std::out_of_range`
(NotFound) throw.  (`at` is a Lean keyword, hence the name `atKey`.) -/
def atKey (m : HashMap K V) (key : K) : Option V :=
  ((m.data.getD (m.bucketIndex key) []).find? (keyMatches key)).map Prod.snd

/-- `clear` (lines 146-150): `data.clear(); data.resize(1); keyCount = 0`. -/
def clear (m : HashMap K V) : HashMap K V :=
  { m with data := [[]], keyCount := 0 }

/-- The default constructor (lines 36-38): a fresh map with one empty
bucket, obtained by `clear()`. -/
def mkEmpty (h : K → Nat) : HashMap K V :=
  { hasher := h, data := [[]], keyCount := 0 }

/-- `size` (line 83). -/
def size (m : HashMap K V) : Nat :=
  m.keyCount

/-- An iterator: the pair of a bucket position (`bucketIt`, as an offset
into `data`) and an element position within that bucket (`elementIt`).
The end iterator is `⟨data.length, 0⟩` (`bucketIt == data.end()`, with the
default-constructed `elementIt` modelled as position `0`; iterator
equality compares both components, and no valid non-end iterator has
`bucketPos = data.length`, so the choice of sentinel is immaterial). -/
structure Iter where
  bucketPos : Nat
  elemPos : Nat
deriving DecidableEq

/-- The `end()` iterator (lines 288-290). -/
def endIter (m : HashMap K V) : Iter :=
  ⟨m.data.length, 0⟩

/-- The bucket-skipping scan shared by `begin` (lines 278-281) and the
`while` loop of `operator++` (lines 179-186): starting at bucket `b`,
advance past empty buckets and stop at position `0` of the first non-empty
one, or at the end state. -/
def skipEmptyFrom (m : HashMap K V) (b : Nat) : Iter :=
  if h : b < m.data.length then
    if (m.data.getD b []).isEmpty then skipEmptyFrom m (b + 1) else ⟨b, 0⟩
  else ⟨m.data.length, 0⟩
termination_by m.data.length - b

/-- `begin` (lines 277-286): skip leading empty buckets; `end()` if every
bucket is empty. -/
def beginIter (m : HashMap K V) : Iter :=
  skipEmptyFrom m 0

/-- `operator++` (lines 173-189): no-op at the end iterator; otherwise
step to the next element of the current chain, or skip forward to the next
non-empty chain (or the end) when the chain is exhausted. -/
def iterNext (m : HashMap K V) (it : Iter) : Iter :=
  if it.bucketPos = m.data.length then it
  else
    let chain := m.data.getD it.bucketPos []
    if it.elemPos + 1 < chain.length then ⟨it.bucketPos, it.elemPos + 1⟩
    else skipEmptyFrom m (it.bucketPos + 1)

/-- `operator*` (lines 197-199): the entry the iterator points at. -/
def deref (m : HashMap K V) (it : Iter) : K × V :=
  (m.data.getD it.bucketPos []).getD it.elemPos default

/-- The chain scan of `find` (lines 310-316): the position of the first
entry matching the key, if any. -/
def chainFindIdx (key : K) : List (K × V) → Option Nat
  | [] => none
  | e :: rest => if e.1 = key then some 0 else (chainFindIdx key rest).map (· + 1)

/-- `find` (lines 307-322): scan the target chain; the end iterator when
the key is absent, otherwise the iterator
`(data.begin() + bucketIndex key, position in chain)`. -/
def find (m : HashMap K V) (key : K) : Iter :=
  let idx := m.bucketIndex key
  match chainFindIdx key (m.data.getD idx []) with
  | none => endIter m
  | some p => ⟨idx, p⟩

/-- `operator[]` (lines 125-132): `find`; when absent, `insert` a
default-constructed value and `find` again; return the found value
together with the (possibly updated) map — the C++ returns a mutable
reference into the map. -/
def indexAccess (m : HashMap K V) (key : K) : V × HashMap K V :=
  if find m key = endIter m then
    let m' := insert m (key, default)
    ((deref m' (find m' key)).2, m')
  else ((deref m (find m key)).2, m)

/-- Iteration from a given iterator, emitting the dereferenced entry at
each step and advancing with `iterNext` until the end iterator is reached;
`fuel` bounds the number of emitted entries (any `fuel ≥ size` is enough,
see `iterFrom_beginIter`). -/
def iterFrom (m : HashMap K V) : Nat → Iter → List (K × V)
  | 0, _ => []
  | fuel + 1, it =>
    if it = endIter m then [] else deref m it :: iterFrom m fuel (iterNext m it)

/-- The core well-formedness of a map state: positive capacity, `keyCount`
equal to the number of stored entries, globally unique keys, and every
entry sitting in the bucket its hash selects. -/
def WFc (m : HashMap K V) : Prop :=
  0 < m.data.length ∧
  m.keyCount = m.data.flatten.length ∧
  (m.data.flatten.map Prod.fst).Nodup ∧
  ∀ i, i < m.data.length → ∀ e ∈ m.data.getD i [], m.hasher e.1 % m.data.length = i

/-- Full well-formedness: the core invariant plus the load-factor bound
`keyCount < capacity` maintained by the public operations. -/
def WF (m : HashMap K V) : Prop :=
  m.WFc ∧ m.keyCount < m.data.length

instance (m : HashMap K V) [DecidableEq V] : Decidable (WFc m) := by
  unfold WFc
  infer_instance

instance (m : HashMap K V) [DecidableEq V] : Decidable (WF m) := by
  unfold WF
  infer_instance

theorem WF.wfc {m : HashMap K V} (hm : m.WF) : m.WFc := hm.1

/-- The states reachable through the public mutating interface: the
default constructor, `insert`, `erase`, `clear`, the range / literal-list
constructors (which `clear`, `rehash` to `distance * MaxLoadFactor + 1`
buckets and then `insert` each element), and the copy constructor (which
`clear`s, `rehash`es to the source's bucket count and reinserts the
source's entries in its iteration order). -/
inductive Reachable : HashMap K V → Prop
  | mk_empty (h : K → Nat) : Reachable (mkEmpty h)
  | insert_step {m : HashMap K V} (v : K × V) : Reachable m → Reachable (m.insert v)
  | erase_step {m : HashMap K V} (k : K) : Reachable m → Reachable (m.erase k)
  | clear_step {m : HashMap K V} : Reachable m → Reachable m.clear
  | from_list (h : K → Nat) (l : List (K × V)) :
      Reachable (l.foldl insert (rehash (mkEmpty h) (newCapacity l.length)))
  | copy {m : HashMap K V} : Reachable m →
      Reachable (m.data.flatten.foldl insert (rehash (mkEmpty m.hasher) m.data.length))

/-! ## Basic arithmetic and list facts -/

theorem newCapacity_pos (k : Nat) : 0 < newCapacity k :=
  Nat.succ_pos _

theorem lt_newCapacity (k : Nat) : k < newCapacity k := by
  have h : k * 1000000000 ≤ k * 1618033988 :=
    Nat.mul_le_mul_left k (by norm_num)
  have h2 : k ≤ k * 1618033988 / 1000000000 :=
    (Nat.le_div_iff_mul_le (by norm_num)).2 h
  unfold newCapacity
  omega

theorem getD_of_lt {α : Type} (l : List α) {i : Nat} (h : i < l.length) (d : α) :
    l.getD i d = l[i] := by
  rw [List.getD_eq_getElem?_getD, List.getElem?_eq_getElem h]
  rfl

theorem list_decomp_at {α : Type} (l : List α) {i : Nat} (h : i < l.length) :
    l = l.take i ++ l[i] :: l.drop (i + 1) := by
  conv_lhs => rw [← List.take_append_drop i l]
  rw [List.drop_eq_getElem_cons h]

theorem flatten_decomp {α : Type} (l : List (List α)) {i : Nat} (h : i < l.length) :
    l.flatten = (l.take i).flatten ++ l[i] ++ (l.drop (i + 1)).flatten := by
  conv_lhs => rw [list_decomp_at l h]
  rw [List.flatten_append, List.flatten_cons, ← List.append_assoc]

theorem keyMatches_eq_true {k : K} {e : K × V} : keyMatches k e = true ↔ e.1 = k := by
  simp [keyMatches]

/-! ## Bucket indexing -/

theorem bucketIndex_lt (m : HashMap K V) (h : 0 < m.data.length) (k : K) :
    m.bucketIndex k < m.data.length :=
  Nat.mod_lt _ h

/-- Under the placement invariant, an entry of bucket `j` hashes to `j`. -/
theorem bucketIndex_of_mem {m : HashMap K V} (hm : m.WFc) {j : Nat}
    (hj : j < m.data.length) {e : K × V} (he : e ∈ m.data[j]) :
    m.bucketIndex e.1 = j := by
  obtain ⟨-, -, -, hhash⟩ := hm
  have := hhash j hj e (by rwa [getD_of_lt _ hj])
  simpa [bucketIndex] using this

/-- An entry of the map lies in the chain that its key's bucket index
selects. -/
theorem mem_chain_of_mem_flatten {m : HashMap K V} (hm : m.WFc) {e : K × V}
    (he : e ∈ m.data.flatten) :
    e ∈ m.data.getD (m.bucketIndex e.1) [] := by
  obtain ⟨b, hb, heb⟩ := List.mem_flatten.1 he
  obtain ⟨j, hj, rfl⟩ := List.mem_iff_getElem.1 hb
  rw [bucketIndex_of_mem hm hj heb, getD_of_lt _ hj]
  exact heb

theorem mem_flatten_of_mem_chain {m : HashMap K V} (hm : m.WFc) {e : K × V} {k : K}
    (he : e ∈ m.data.getD (m.bucketIndex k) []) :
    e ∈ m.data.flatten := by
  have hpos : 0 < m.data.length := hm.1
  have hlt := bucketIndex_lt m hpos k
  rw [getD_of_lt _ hlt] at he
  exact List.mem_flatten.2 ⟨_, List.getElem_mem hlt, he⟩

/-! ## `atKey` as lookup in the flattened entry list -/

theorem find?_flatten_eq_none {α : Type} {P : α → Bool} {ls : List (List α)}
    (h : ∀ b ∈ ls, ∀ e ∈ b, P e = false) : ls.flatten.find? P = none := by
  rw [List.find?_eq_none]
  intro e he
  obtain ⟨b, hb, heb⟩ := List.mem_flatten.1 he
  simp [h b hb e heb]

/-- An entry stored in a bucket other than `key`'s target bucket cannot
match `key`. -/
theorem keyMatches_false_of_ne_bucket {m : HashMap K V} (hm : m.WFc) {k : K}
    {j : Nat} (hj : j < m.data.length) (hne : j ≠ m.bucketIndex k)
    {e : K × V} (he : e ∈ m.data[j]) : keyMatches k e = false := by
  rcases Bool.eq_false_or_eq_true (keyMatches k e) with h | h
  case inr => exact h
  case inl =>
    have hek : e.1 = k := keyMatches_eq_true.1 h
    have hbv := bucketIndex_of_mem hm hj he
    rw [hek] at hbv
    exact absurd hbv.symm hne

/-- `at` agrees with first-match lookup over the flat entry sequence. -/
theorem atKey_eq_flatten_find? {m : HashMap K V} (hm : m.WFc) (k : K) :
    m.atKey k = (m.data.flatten.find? (keyMatches k)).map Prod.snd := by
  have hpos : 0 < m.data.length := hm.1
  have hidx := bucketIndex_lt m hpos k
  have hT : ((m.data.take (m.bucketIndex k)).flatten.find? (keyMatches k)) = none := by
    refine find?_flatten_eq_none ?_
    intro b hb e heb
    obtain ⟨j, hj, rfl⟩ := List.mem_iff_getElem.1 hb
    have hjlt : j < m.bucketIndex k := by
      have := hj
      simp only [List.length_take] at this
      omega
    have hjlen : j < m.data.length := hjlt.trans hidx
    rw [List.getElem_take] at heb
    exact keyMatches_false_of_ne_bucket hm hjlen (Nat.ne_of_lt hjlt) heb
  have hD : ((m.data.drop (m.bucketIndex k + 1)).flatten.find? (keyMatches k)) = none := by
    refine find?_flatten_eq_none ?_
    intro b hb e heb
    obtain ⟨j, hj, rfl⟩ := List.mem_iff_getElem.1 hb
    rw [List.getElem_drop] at heb
    have hjlen : m.bucketIndex k + 1 + j < m.data.length := by
      have := hj
      simp only [List.length_drop] at this
      omega
    exact keyMatches_false_of_ne_bucket hm hjlen (by omega) heb
  rw [atKey, flatten_decomp m.data hidx, List.find?_append, List.find?_append, hT,
    Option.none_or, getD_of_lt _ hidx]
  cases hC : (m.data[m.bucketIndex k]).find? (keyMatches k) with
  | none => simp [hD]
  | some e => simp

/-- `at` fails (NotFound) exactly when the key is stored nowhere. -/
theorem atKey_eq_none_iff {m : HashMap K V} (hm : m.WFc) (k : K) :
    m.atKey k = none ↔ k ∉ m.data.flatten.map Prod.fst := by
  rw [atKey_eq_flatten_find? hm, Option.map_eq_none', List.find?_eq_none]
  constructor
  · intro h hk
    obtain ⟨e, he, hek⟩ := List.mem_map.1 hk
    exact absurd (keyMatches_eq_true.2 hek) (by simpa using h e he)
  · intro h e he
    intro hcon
    exact h (List.mem_map.2 ⟨e, he, keyMatches_eq_true.1 hcon⟩)

/-- `at` returns `some v` exactly when the entry `(k, v)` is stored. -/
theorem atKey_eq_some_iff {m : HashMap K V} (hm : m.WFc) (k : K) (v : V) :
    m.atKey k = some v ↔ (k, v) ∈ m.data.flatten := by
  rw [atKey_eq_flatten_find? hm]
  constructor
  · intro h
    obtain ⟨e, he, hev⟩ := Option.map_eq_some'.1 h
    have hmem := List.mem_of_find?_eq_some he
    have hek : e.1 = k := keyMatches_eq_true.1 (List.find?_some he)
    have : e = (k, v) := by
      cases e
      simp_all
    rwa [← this]
  · intro h
    obtain ⟨-, -, hnodup, -⟩ := hm
    cases hfind : m.data.flatten.find? (keyMatches k) with
    | none =>
      rw [List.find?_eq_none] at hfind
      exact absurd (keyMatches_eq_true.2 rfl) (by simpa using hfind (k, v) h)
    | some e =>
      have hmem := List.mem_of_find?_eq_some hfind
      have hek : e.1 = k := keyMatches_eq_true.1 (List.find?_some hfind)
      have : e = (k, v) :=
        List.inj_on_of_nodup_map hnodup hmem h (by simpa using hek)
      simp [this]

/-- The chain scan of the target bucket succeeds exactly when `at` does.
(This is chain-local: no well-formedness needed.) -/
theorem chainAny_iff_atKey_isSome (m : HashMap K V) (k : K) :
    (m.data.getD (m.bucketIndex k) []).any (keyMatches k) = true ↔
      (m.atKey k).isSome = true := by
  rw [atKey]
  cases hfind : (m.data.getD (m.bucketIndex k) []).find? (keyMatches k) with
  | none =>
    rw [List.find?_eq_none] at hfind
    simp only [Option.map_none', Option.isSome_none]
    rw [List.any_eq_true]
    constructor
    · rintro ⟨x, hx, hpx⟩
      exact absurd hpx (by simpa using hfind x hx)
    · intro h
      cases h
  | some e =>
    simp only [Option.map_some', Option.isSome_some, iff_true]
    exact List.any_eq_true.2 ⟨e, List.mem_of_find?_eq_some hfind, List.find?_some hfind⟩

/-- The chain scan fails exactly when `at` returns NotFound. -/
theorem chainAny_eq_false_iff (m : HashMap K V) (k : K) :
    (m.data.getD (m.bucketIndex k) []).any (keyMatches k) = false ↔
      m.atKey k = none := by
  rw [← Option.not_isSome_iff_eq_none, ← chainAny_iff_atKey_isSome]
  simp

/-- When the key is already stored, the `insert` body is a no-op (first
write wins): the map is returned unchanged. -/
theorem insertCore_present {m : HashMap K V} {v : K × V}
    (h : (m.atKey v.1).isSome = true) : m.insertCore v = m := by
  rw [insertCore]
  simp only [(chainAny_iff_atKey_isSome m v.1).2 h, if_true]

/-- When the key is already stored, `insert` is a no-op. -/
theorem insert_present {m : HashMap K V} {v : K × V}
    (h : (m.atKey v.1).isSome = true) : m.insert v = m := by
  rw [insert]
  simp only [(chainAny_iff_atKey_isSome m v.1).2 h, if_true]

/-- Full description of the `insert` body on an absent key: the entry is
appended to its target chain, the count grows by one, the core invariant
is preserved, the new key reads back, and every other key is untouched. -/
theorem insertCore_absent {m : HashMap K V} (hm : m.WFc) {k : K} (v : V)
    (habs : m.atKey k = none) :
    (m.insertCore (k, v)).WFc ∧
    (m.insertCore (k, v)).hasher = m.hasher ∧
    (m.insertCore (k, v)).data.length = m.data.length ∧
    (m.insertCore (k, v)).keyCount = m.keyCount + 1 ∧
    (m.insertCore (k, v)).atKey k = some v ∧
    ∀ k', k' ≠ k → (m.insertCore (k, v)).atKey k' = m.atKey k' := by
  have hpos : 0 < m.data.length := hm.1
  have hidx : m.bucketIndex k < m.data.length := bucketIndex_lt m hpos k
  have hcond : (m.data.getD (m.bucketIndex k) []).any (keyMatches k) = false :=
    (chainAny_eq_false_iff m k).2 habs
  have hfindnone : (m.data.getD (m.bucketIndex k) []).find? (keyMatches k) = none := by
    rw [atKey] at habs
    exact Option.map_eq_none'.1 habs
  set idx := m.bucketIndex k with hidxdef
  set chain := m.data.getD idx [] with hchain
  have hr : m.insertCore (k, v) =
      { m with data := m.data.set idx (chain ++ [(k, v)]), keyCount := m.keyCount + 1 } := by
    rw [insertCore]
    simp only [← hidxdef, ← hchain, hcond, Bool.false_eq_true, if_false]
  have hchain_elem : chain = m.data[idx] := getD_of_lt _ hidx []
  have hlen : (m.data.set idx (chain ++ [(k, v)])).length = m.data.length :=
    List.length_set m.data idx _
  -- the flattened entry sequence before and after
  have hflat_old : m.data.flatten =
      (m.data.take idx).flatten ++ m.data[idx] ++ (m.data.drop (idx + 1)).flatten :=
    flatten_decomp m.data hidx
  have hset : m.data.set idx (chain ++ [(k, v)]) =
      m.data.take idx ++ (chain ++ [(k, v)]) :: m.data.drop (idx + 1) :=
    List.set_eq_take_cons_drop _ hidx
  have hflat_new : (m.data.set idx (chain ++ [(k, v)])).flatten =
      (m.data.take idx).flatten ++ (chain ++ [(k, v)]) ++ (m.data.drop (idx + 1)).flatten := by
    rw [hset, List.flatten_append, List.flatten_cons, ← List.append_assoc]
  have hknotin : k ∉ m.data.flatten.map Prod.fst := (atKey_eq_none_iff hm k).1 habs
  -- bucket index is unchanged by the update
  have hbi : ∀ k', (m.insertCore (k, v)).bucketIndex k' = m.bucketIndex k' := by
    intro k'
    rw [hr]
    simp [bucketIndex, List.length_set]
  -- the updated chain and the untouched chains
  have hchain_new : (m.data.set idx (chain ++ [(k, v)])).getD idx [] = chain ++ [(k, v)] := by
    rw [getD_of_lt _ (by rw [hlen]; exact hidx)]
    exact List.getElem_set_self _
  have hchain_other : ∀ j, j ≠ idx →
      (m.data.set idx (chain ++ [(k, v)])).getD j [] = m.data.getD j [] := by
    intro j hj
    rw [List.getD_eq_getElem?_getD, List.getD_eq_getElem?_getD,
      List.getElem?_set_ne (fun hh => hj hh.symm)]
  refine ⟨?_, by rw [hr], by rw [hr]; exact hlen, by rw [hr], ?_, ?_⟩
  · -- WFc of the result
    obtain ⟨-, hcount, hnodup, hhash⟩ := hm
    refine ⟨by rw [hr]; simpa [hlen] using hpos, ?_, ?_, ?_⟩
    · -- count
      rw [hr]
      simp only [hflat_new]
      rw [hcount, hflat_old]
      simp [hchain_elem]
      omega
    · -- nodup keys
      rw [hr]
      simp only [hflat_new]
      have : (m.data.take idx).flatten ++ (chain ++ [(k, v)]) ++
          (m.data.drop (idx + 1)).flatten =
          ((m.data.take idx).flatten ++ chain) ++ (k, v) :: (m.data.drop (idx + 1)).flatten := by
        simp [List.append_assoc]
      rw [this, List.map_append, List.map_cons]
      rw [List.nodup_middle]
      rw [List.nodup_cons]
      constructor
      · intro hkmem
        apply hknotin
        rw [hflat_old, hchain_elem.symm]
        simpa [List.append_assoc] using hkmem
      · have := hnodup
        rw [hflat_old, hchain_elem.symm] at this
        simpa [List.append_assoc] using this
    · -- hash placement
      rw [hr]
      intro i hi e he
      simp only [hlen] at hi ⊢
      simp only at he
      rcases eq_or_ne i idx with heq | hne
      · subst heq
        rw [hchain_new] at he
        rcases List.mem_append.1 he with he' | he'
        · exact hhash idx hi e he'
        · have heq2 : e = (k, v) := by simpa using he'
          subst heq2
          show m.hasher k % m.data.length = idx
          rw [hidxdef]
          rfl
      · rw [hchain_other i hne] at he
        exact hhash i hi e he
  · -- the new key reads back
    rw [atKey, hbi k, hr]
    simp only
    rw [← hidxdef, hchain_new, List.find?_append, hfindnone, Option.none_or]
    simp [List.find?, keyMatches]
  · -- frame: other keys unchanged
    intro k' hk'
    rw [atKey, atKey, hbi k', hr]
    simp only
    rcases eq_or_ne (m.bucketIndex k') idx with heq | hne
    · rw [heq, hchain_new, List.find?_append]
      have hsingle : [(k, v)].find? (keyMatches k') = none := by
        simp only [List.find?, keyMatches]
        have : ¬((k, v).1 = k') := fun hkk' => hk' (hkk'.symm)
        simp [this]
      rw [hsingle, Option.or_none, hchain]
    · rw [hchain_other _ hne]

theorem flatten_replicate_nil {α : Type} (c : Nat) :
    (List.replicate c ([] : List α)).flatten = [] := by
  induction c with
  | zero => rfl
  | succ n ih => simp [List.replicate, ih]

theorem getD_replicate_nil {α : Type} (c i : Nat) :
    (List.replicate c ([] : List α)).getD i [] = [] := by
  rw [List.getD_eq_getElem?_getD, List.getElem?_replicate]
  split <;> rfl

/-- The fresh table allocated by `rehash`: `bucketSize` empty buckets. -/
theorem emptyTable_atKey (h : K → Nat) (c : Nat) (k : K) :
    (⟨h, List.replicate c [], 0⟩ : HashMap K V).atKey k = none := by
  rw [atKey]
  simp only [getD_replicate_nil]
  rfl

theorem emptyTable_wfc (h : K → Nat) {c : Nat} (hc : 0 < c) :
    (⟨h, List.replicate c [], 0⟩ : HashMap K V).WFc := by
  refine ⟨by simpa using hc, by simp [flatten_replicate_nil], by simp [flatten_replicate_nil], ?_⟩
  intro i hi e he
  rw [getD_replicate_nil] at he
  cases he

/-- Folding the `insert` body over a duplicate-free batch of fresh keys:
the table shape is preserved, the count grows by the batch length, the
core invariant is maintained, and lookups become first-match lookup in the
batch, falling back to the original map. -/
theorem foldl_insertCore_spec :
    ∀ (E : List (K × V)) (m : HashMap K V), m.WFc →
      (E.map Prod.fst).Nodup → (∀ k ∈ E.map Prod.fst, m.atKey k = none) →
      (E.foldl insertCore m).WFc ∧
      (E.foldl insertCore m).hasher = m.hasher ∧
      (E.foldl insertCore m).data.length = m.data.length ∧
      (E.foldl insertCore m).keyCount = m.keyCount + E.length ∧
      ∀ k, (E.foldl insertCore m).atKey k =
        ((E.find? (keyMatches k)).map Prod.snd).or (m.atKey k) := by
  intro E
  induction E with
  | nil =>
    intro m hm _ _
    exact ⟨hm, rfl, rfl, rfl, fun k => by simp⟩
  | cons v E ih =>
    intro m hm hnodup habs
    obtain ⟨k₀, v₀⟩ := v
    have habs₀ : m.atKey k₀ = none := habs k₀ (by simp)
    obtain ⟨hwfc₁, hhash₁, hlen₁, hcount₁, hat₁, hframe₁⟩ :=
      insertCore_absent hm v₀ habs₀
    have hk₀notE : k₀ ∉ E.map Prod.fst := by
      have := hnodup
      simp only [List.map_cons, List.nodup_cons] at this
      exact this.1
    have hnodupE : (E.map Prod.fst).Nodup := by
      have := hnodup
      simp only [List.map_cons, List.nodup_cons] at this
      exact this.2
    have habsE : ∀ k ∈ E.map Prod.fst, (m.insertCore (k₀, v₀)).atKey k = none := by
      intro k hk
      have hne : k ≠ k₀ := fun hkk => hk₀notE (hkk ▸ hk)
      rw [hframe₁ k hne]
      exact habs k (by simp [hk])
    obtain ⟨hwfc, hhash, hlen, hcount, hat⟩ :=
      ih (m.insertCore (k₀, v₀)) hwfc₁ hnodupE habsE
    simp only [List.foldl_cons]
    refine ⟨hwfc, hhash.trans hhash₁, hlen.trans hlen₁, ?_, ?_⟩
    · rw [hcount, hcount₁]
      simp only [List.length_cons]
      omega
    · intro k
      rw [hat k]
      rcases eq_or_ne k k₀ with rfl | hne
      · have hEnone : E.find? (keyMatches k) = none := by
          rw [List.find?_eq_none]
          intro e he hmatch
          exact hk₀notE (List.mem_map.2 ⟨e, he, keyMatches_eq_true.1 hmatch⟩)
        rw [hEnone, hat₁, habs₀]
        simp [List.find?, keyMatches]
      · rw [hframe₁ k hne]
        have : (((k₀, v₀) :: E).find? (keyMatches k)) = E.find? (keyMatches k) := by
          rw [List.find?_cons]
          have : keyMatches k (k₀, v₀) = false := by
            simp only [keyMatches, decide_eq_false_iff_not]
            exact fun hkk => hne hkk.symm
          simp [this]
        rw [this]

/-- `rehash` preserves the stored mapping: with a positive target bucket
count, the rebuilt table has exactly `bucketSize` buckets, the same entry
count, the same hash functor, satisfies the core invariant, and `at`
agrees with the original map on every key. -/
theorem rehash_spec {m : HashMap K V} (hm : m.WFc) {c : Nat} (hc : 0 < c) :
    (m.rehash c).WFc ∧ (m.rehash c).hasher = m.hasher ∧
    (m.rehash c).data.length = c ∧ (m.rehash c).keyCount = m.keyCount ∧
    ∀ k, (m.rehash c).atKey k = m.atKey k := by
  have hcounteq := hm.2.1
  have hnodup := hm.2.2.1
  have hstart := emptyTable_wfc (V := V) m.hasher hc
  have habs : ∀ k ∈ m.data.flatten.map Prod.fst,
      (⟨m.hasher, List.replicate c [], 0⟩ : HashMap K V).atKey k = none :=
    fun k _ => emptyTable_atKey m.hasher c k
  obtain ⟨hwfc, hhash, hlen, hcount, hat⟩ :=
    foldl_insertCore_spec m.data.flatten _ hstart hnodup habs
  rw [rehash]
  refine ⟨hwfc, hhash, by simpa using hlen, by rw [hcount]; simpa using hcounteq.symm, ?_⟩
  intro k
  rw [hat k, emptyTable_atKey, Option.or_none, ← atKey_eq_flatten_find? hm]

/-- Faithfulness of the `insertCore`-based reinsertion: as long as the
table strictly outsizes the entries still to be inserted, the full C++
`insert` (with its grow check) and the check-free body agree, because the
check never fires.  Every `rehash` call site in the source satisfies this
bound. -/
theorem foldl_insert_eq_foldl_insertCore :
    ∀ (E : List (K × V)) (m : HashMap K V), m.keyCount + E.length < m.data.length →
      E.foldl insert m = E.foldl insertCore m := by
  intro E
  induction E with
  | nil => intro m _; rfl
  | cons v E ih =>
    intro m hbound
    simp only [List.foldl_cons, List.length_cons] at hbound ⊢
    by_cases hany : (m.data.getD (m.bucketIndex v.1) []).any (keyMatches v.1) = true
    · have h1 : m.insert v = m := by rw [insert]; simp only [hany, if_true]
      have h2 : m.insertCore v = m := by rw [insertCore]; simp only [hany, if_true]
      rw [h1, h2]
      exact ih m (by omega)
    · have hanyf : (m.data.getD (m.bucketIndex v.1) []).any (keyMatches v.1) = false :=
        Bool.eq_false_iff.2 hany
      have h2 : m.insertCore v =
          { m with data := m.data.set (m.bucketIndex v.1)
                     ((m.data.getD (m.bucketIndex v.1) []) ++ [v]),
                   keyCount := m.keyCount + 1 } := by
        rw [insertCore]
        simp only [hanyf, Bool.false_eq_true, if_false]
      have hnogrow : ¬((m.insertCore v).data.length ≤ (m.insertCore v).keyCount) := by
        rw [h2]
        simp only [List.length_set]
        omega
      have h1 : m.insert v = m.insertCore v := by
        rw [insert, h2]
        simp only [hanyf, Bool.false_eq_true, if_false]
        rw [if_neg (by rw [h2] at hnogrow; simpa using hnogrow)]
      rw [h1]
      refine ih (m.insertCore v) ?_
      rw [h2]
      simp only [List.length_set]
      omega

/-- Full description of `insert` on an absent key, including the possible
grow rehash: the result is well formed (in particular `size < capacity`),
the count grows by one, the new key reads back, and all other keys keep
their values. -/
theorem insert_absent {m : HashMap K V} (hm : m.WF) {k : K} (v : V)
    (habs : m.atKey k = none) :
    (m.insert (k, v)).WF ∧
    (m.insert (k, v)).hasher = m.hasher ∧
    (m.insert (k, v)).keyCount = m.keyCount + 1 ∧
    (m.insert (k, v)).atKey k = some v ∧
    ∀ k', k' ≠ k → (m.insert (k, v)).atKey k' = m.atKey k' := by
  have hcond : (m.data.getD (m.bucketIndex k) []).any (keyMatches k) = false :=
    (chainAny_eq_false_iff m k).2 habs
  obtain ⟨hwfc₁, hhash₁, hlen₁, hcount₁, hat₁, hframe₁⟩ :=
    insertCore_absent hm.wfc v habs
  have hsplit : m.insert (k, v) =
      if (m.insertCore (k, v)).data.length ≤ (m.insertCore (k, v)).keyCount then
        rehash (m.insertCore (k, v)) (newCapacity ((m.insertCore (k, v)).keyCount))
      else m.insertCore (k, v) := by
    rw [insert, insertCore]
    simp only [hcond, Bool.false_eq_true, if_false]
  by_cases hgrow : (m.insertCore (k, v)).data.length ≤ (m.insertCore (k, v)).keyCount
  · rw [hsplit, if_pos hgrow]
    obtain ⟨hwfc₂, hhash₂, hlen₂, hcount₂, hat₂⟩ :=
      rehash_spec hwfc₁ (newCapacity_pos ((m.insertCore (k, v)).keyCount))
    refine ⟨⟨hwfc₂, ?_⟩, hhash₂.trans hhash₁, hcount₂.trans hcount₁, ?_, ?_⟩
    · rw [hcount₂, hlen₂]
      exact lt_newCapacity _
    · rw [hat₂ k, hat₁]
    · intro k' hk'
      rw [hat₂ k', hframe₁ k' hk']
  · rw [hsplit, if_neg hgrow]
    push_neg at hgrow
    exact ⟨⟨hwfc₁, hgrow⟩, hhash₁, hcount₁, hat₁, hframe₁⟩

/-- `insert` preserves full well-formedness. -/
theorem wf_insert {m : HashMap K V} (hm : m.WF) (v : K × V) : (m.insert v).WF := by
  cases hat : m.atKey v.1 with
  | some w => rw [insert_present (by simp [hat])]; exact hm
  | none =>
    obtain ⟨k, w⟩ := v
    exact (insert_absent hm w hat).1

/-- `erase` of an absent key returns before touching anything: an exact
no-op. -/
theorem erase_absent {m : HashMap K V} {k : K} (habs : m.atKey k = none) :
    m.erase k = m := by
  have hcond := (chainAny_eq_false_iff m k).2 habs
  rw [erase]
  simp only [hcond, Bool.false_eq_true, if_false]

/-- On a present key, `erase` is the check-free removal followed by the
shrink test against the post-removal length of the modified chain. -/
theorem erase_split {m : HashMap K V} {k : K}
    (hany : (m.data.getD (m.bucketIndex k) []).any (keyMatches k) = true) :
    m.erase k =
      if shrinkNeeded (m.keyCount - 1)
          ((m.data.getD (m.bucketIndex k) []).eraseP (keyMatches k)).length then
        (m.eraseCore k).rehash (newCapacity (m.keyCount - 1))
      else m.eraseCore k := by
  rw [erase, eraseCore]
  simp only [hany, if_true]

/-- The keys of one bucket's chain are duplicate-free. -/
theorem chain_keys_nodup {m : HashMap K V} (hm : m.WFc) {i : Nat}
    (hi : i < m.data.length) : ((m.data.getD i []).map Prod.fst).Nodup := by
  have hnodup := hm.2.2.1
  rw [flatten_decomp m.data hi] at hnodup
  rw [getD_of_lt _ hi]
  simp only [List.map_append, List.nodup_append] at hnodup
  exact hnodup.1.2.1

/-- Full description of the `erase` body on a present key: the entry is
removed from its chain, the count drops by one, the core invariant is
preserved, the key no longer reads back, and every other key is
untouched. -/
theorem eraseCore_present {m : HashMap K V} (hm : m.WFc) {k : K} {v : V}
    (hv : m.atKey k = some v) :
    (m.eraseCore k).WFc ∧
    (m.eraseCore k).hasher = m.hasher ∧
    (m.eraseCore k).data.length = m.data.length ∧
    (m.eraseCore k).keyCount + 1 = m.keyCount ∧
    (m.eraseCore k).atKey k = none ∧
    ∀ k', k' ≠ k → (m.eraseCore k).atKey k' = m.atKey k' := by
  have hpos : 0 < m.data.length := hm.1
  have hidx : m.bucketIndex k < m.data.length := bucketIndex_lt m hpos k
  set idx := m.bucketIndex k with hidxdef
  set chain := m.data.getD idx [] with hchaindef
  -- the found entry is exactly (k, v)
  have hfind : chain.find? (keyMatches k) = some (k, v) := by
    rw [atKey] at hv
    obtain ⟨e, he, hev⟩ := Option.map_eq_some'.1 hv
    have hek : e.1 = k := keyMatches_eq_true.1 (List.find?_some he)
    have : e = (k, v) := by cases e; simp_all
    rwa [this] at he
  have hmemchain : (k, v) ∈ chain := List.mem_of_find?_eq_some hfind
  have hany : chain.any (keyMatches k) = true :=
    List.any_eq_true.2 ⟨(k, v), hmemchain, keyMatches_eq_true.2 rfl⟩
  have hchain_elem : chain = m.data[idx] := getD_of_lt _ hidx []
  have hchainnodup : (chain.map Prod.fst).Nodup := hchaindef ▸ chain_keys_nodup hm hidx
  -- decompose the chain around the erased entry
  obtain ⟨a, l₁, l₂, hl₁, hpa, hchain_eq, herase_eq⟩ :=
    List.exists_of_eraseP hmemchain (keyMatches_eq_true.2 rfl)
  have hak : a.1 = k := keyMatches_eq_true.1 hpa
  have hav : a = (k, v) := by
    refine List.inj_on_of_nodup_map hchainnodup ?_ hmemchain (by rw [hak])
    rw [hchain_eq]
    exact List.mem_append.2 (Or.inr (List.mem_cons_self a l₂))
  set chain' := chain.eraseP (keyMatches k) with hchainPrimeDef
  have hr : m.eraseCore k =
      { m with data := m.data.set idx chain', keyCount := m.keyCount - 1 } := by
    rw [eraseCore]
    simp only [← hidxdef, ← hchaindef, hany, if_true]
  have hlen : (m.data.set idx chain').length = m.data.length := List.length_set m.data idx _
  have hflat_old : m.data.flatten =
      (m.data.take idx).flatten ++ m.data[idx] ++ (m.data.drop (idx + 1)).flatten :=
    flatten_decomp m.data hidx
  have hset : m.data.set idx chain' =
      m.data.take idx ++ chain' :: m.data.drop (idx + 1) :=
    List.set_eq_take_cons_drop _ hidx
  have hflat_new : (m.data.set idx chain').flatten =
      (m.data.take idx).flatten ++ chain' ++ (m.data.drop (idx + 1)).flatten := by
    rw [hset, List.flatten_append, List.flatten_cons, ← List.append_assoc]
  have hcount := hm.2.1
  have hcountpos : 1 ≤ m.keyCount := by
    rw [hcount]
    have : (k, v) ∈ m.data.flatten := mem_flatten_of_mem_chain hm (hchaindef ▸ hmemchain)
    exact List.length_pos.2 (List.ne_nil_of_mem this)
  have hchainPrimeLen : chain'.length + 1 = chain.length := by
    rw [hchainPrimeDef]
    exact List.length_eraseP_add_one hmemchain (keyMatches_eq_true.2 rfl)
  have hbi : ∀ k', (m.eraseCore k).bucketIndex k' = m.bucketIndex k' := by
    intro k'
    rw [hr]
    simp [bucketIndex, List.length_set]
  have hchain_new : (m.data.set idx chain').getD idx [] = chain' := by
    rw [getD_of_lt _ (by rw [hlen]; exact hidx)]
    exact List.getElem_set_self _
  have hchain_other : ∀ j, j ≠ idx →
      (m.data.set idx chain').getD j [] = m.data.getD j [] := by
    intro j hj
    rw [List.getD_eq_getElem?_getD, List.getD_eq_getElem?_getD,
      List.getElem?_set_ne (fun hh => hj hh.symm)]
  -- the sublist relation between new and old flattened sequences
  have hsub : (m.data.set idx chain').flatten.Sublist m.data.flatten := by
    rw [hflat_new, hflat_old, ← hchain_elem]
    refine List.Sublist.append (List.Sublist.append (List.Sublist.refl _) ?_)
      (List.Sublist.refl _)
    rw [herase_eq, hchain_eq]
    exact List.Sublist.append (List.Sublist.refl _) (List.sublist_cons_self a l₂)
  -- k does not occur in the reduced chain
  have hknotin' : ∀ e ∈ chain', e.1 ≠ k := by
    intro e he
    rw [herase_eq] at he
    have hkeys : (chain.map Prod.fst).Nodup := hchainnodup
    rw [hchain_eq, hav] at hkeys
    simp only [List.map_append, List.map_cons] at hkeys
    rw [List.nodup_middle, List.nodup_cons] at hkeys
    intro hek
    apply hkeys.1
    rw [← List.map_append]
    exact List.mem_map.2 ⟨e, he, hek⟩
  refine ⟨?_, by rw [hr], by rw [hr]; exact hlen, by rw [hr]; simpa using Nat.succ_pred_eq_of_pos hcountpos, ?_, ?_⟩
  · -- WFc of the result
    have hnodup := hm.2.2.1
    have hhash := hm.2.2.2
    refine ⟨by rw [hr]; simpa [hlen] using hpos, ?_, ?_, ?_⟩
    · -- count
      rw [hr]
      simp only [hflat_new]
      have hlenold : m.data.flatten.length =
          (m.data.take idx).flatten.length + chain.length +
            (m.data.drop (idx + 1)).flatten.length := by
        rw [hflat_old, ← hchain_elem]
        simp only [List.length_append]
      simp only [List.length_append]
      omega
    · -- nodup keys
      rw [hr]
      exact hnodup.sublist (hsub.map Prod.fst)
    · -- hash placement
      rw [hr]
      have hhash' := hhash
      intro i hi e he
      simp only [hlen] at hi ⊢
      simp only at he
      rcases eq_or_ne i idx with heq | hne
      · subst heq
        rw [hchain_new] at he
        have : e ∈ chain := by
          rw [herase_eq] at he
          rw [hchain_eq]
          rcases List.mem_append.1 he with h | h
          · exact List.mem_append.2 (Or.inl h)
          · exact List.mem_append.2 (Or.inr (List.mem_cons_of_mem a h))
        exact hhash' idx hi e this
      · rw [hchain_other i hne] at he
        exact hhash' i hi e he
  · -- the erased key no longer reads back
    rw [atKey, hbi k, hr]
    simp only
    rw [← hidxdef, hchain_new, Option.map_eq_none', List.find?_eq_none]
    intro e he hmatch
    exact hknotin' e he (keyMatches_eq_true.1 hmatch)
  · -- frame: other keys unchanged
    intro k' hk'
    rw [atKey, atKey, hbi k', hr]
    simp only
    rcases eq_or_ne (m.bucketIndex k') idx with heq | hne
    · rw [heq, hchain_new]
      have hrhs : m.data.getD idx [] = l₁ ++ a :: l₂ := by
        rw [← hchaindef]
        exact hchain_eq
      rw [hrhs, herase_eq, List.find?_append, List.find?_append]
      have hcons : (a :: l₂).find? (keyMatches k') = l₂.find? (keyMatches k') := by
        rw [List.find?_cons]
        have hfa : keyMatches k' a = false := by
          rw [hav]
          simp only [keyMatches, decide_eq_false_iff_not]
          exact fun hkk' => hk' hkk'.symm
        simp [hfa]
      rw [hcons]
    · rw [hchain_other _ hne]

/-- Full description of `erase` on a present key, including the possible
shrink rehash. -/
theorem erase_present {m : HashMap K V} (hm : m.WF) {k : K} {v : V}
    (hv : m.atKey k = some v) :
    (m.erase k).WF ∧
    (m.erase k).hasher = m.hasher ∧
    (m.erase k).keyCount + 1 = m.keyCount ∧
    (m.erase k).atKey k = none ∧
    ∀ k', k' ≠ k → (m.erase k).atKey k' = m.atKey k' := by
  have hany : (m.data.getD (m.bucketIndex k) []).any (keyMatches k) = true :=
    (chainAny_iff_atKey_isSome m k).2 (by simp [hv])
  obtain ⟨hwfc₁, hhash₁, hlen₁, hcount₁, hat₁, hframe₁⟩ := eraseCore_present hm.wfc hv
  rw [erase_split hany]
  by_cases hshrink : shrinkNeeded (m.keyCount - 1)
      ((m.data.getD (m.bucketIndex k) []).eraseP (keyMatches k)).length
  · rw [if_pos hshrink]
    obtain ⟨hwfc₂, hhash₂, hlen₂, hcount₂, hat₂⟩ :=
      rehash_spec hwfc₁ (newCapacity_pos (m.keyCount - 1))
    have hcc : (m.eraseCore k).keyCount = m.keyCount - 1 := by omega
    refine ⟨⟨hwfc₂, ?_⟩, hhash₂.trans hhash₁, by rw [hcount₂]; omega, ?_, ?_⟩
    · rw [hcount₂, hlen₂, hcc]
      exact lt_newCapacity _
    · rw [hat₂ k, hat₁]
    · intro k' hk'
      rw [hat₂ k', hframe₁ k' hk']
  · rw [if_neg hshrink]
    have hload : m.keyCount < m.data.length := hm.2
    exact ⟨⟨hwfc₁, by rw [hlen₁]; omega⟩, hhash₁, hcount₁, hat₁, hframe₁⟩

/-- `erase` preserves full well-formedness. -/
theorem wf_erase {m : HashMap K V} (hm : m.WF) (k : K) : (m.erase k).WF := by
  cases hat : m.atKey k with
  | none => rw [erase_absent hat]; exact hm
  | some v => exact (erase_present hm hat).1

/-- A freshly cleared map is well formed: one empty bucket, zero entries. -/
theorem wf_clear (m : HashMap K V) : m.clear.WF := by
  refine ⟨⟨by simp [clear], by simp [clear], by simp [clear], ?_⟩, by simp [clear]⟩
  intro i hi e he
  simp only [clear, List.length_cons, List.length_nil] at hi
  have hi0 : i = 0 := by omega
  subst hi0
  simp [clear] at he

/-- A freshly constructed map is well formed. -/
theorem wf_mkEmpty (h : K → Nat) : (mkEmpty h : HashMap K V).WF :=
  wf_clear ⟨h, [[]], 0⟩

/-- The empty table of any positive size is well formed. -/
theorem wf_emptyTable (h : K → Nat) {c : Nat} (hc : 0 < c) :
    (⟨h, List.replicate c [], 0⟩ : HashMap K V).WF :=
  ⟨emptyTable_wfc h hc, by simpa using hc⟩

/-- Rehashing the empty map just allocates the fresh table. -/
theorem rehash_mkEmpty (h : K → Nat) (c : Nat) :
    (mkEmpty h : HashMap K V).rehash c = ⟨h, List.replicate c [], 0⟩ :=
  rfl

/-- Repeated insertion preserves full well-formedness. -/
theorem wf_foldl_insert {m : HashMap K V} (hm : m.WF) (l : List (K × V)) :
    (l.foldl insert m).WF := by
  induction l generalizing m with
  | nil => exact hm
  | cons v l ih => exact ih (wf_insert hm v)

/-- Every state reachable through the public interface is well formed; in
particular `size < capacity` and `capacity ≥ 1` hold in every reachable
state. -/
theorem reachable_wf {m : HashMap K V} (hr : Reachable m) : m.WF := by
  induction hr with
  | mk_empty h => exact wf_mkEmpty h
  | insert_step v _ ih => exact wf_insert ih v
  | erase_step k _ ih => exact wf_erase ih k
  | clear_step _ _ => exact wf_clear _
  | from_list h l =>
    rw [rehash_mkEmpty]
    exact wf_foldl_insert (wf_emptyTable h (newCapacity_pos _)) l
  | copy hm ih =>
    rw [rehash_mkEmpty]
    exact wf_foldl_insert (wf_emptyTable _ ih.1.1) _

/-! ## `find` and `operator[]` -/

theorem chainFindIdx_eq_none_iff (key : K) :
    ∀ l : List (K × V), chainFindIdx key l = none ↔ l.find? (keyMatches key) = none := by
  intro l
  induction l with
  | nil => simp [chainFindIdx]
  | cons e rest ih =>
    rw [chainFindIdx, List.find?_cons]
    by_cases he : e.1 = key
    · simp [he, keyMatches_eq_true.2 he]
    · have : keyMatches key e = false := by
        simp [keyMatches, he]
      simp [he, this, Option.map_eq_none', ih]

theorem chainFindIdx_some_spec {key : K} :
    ∀ (l : List (K × V)) {i : Nat}, chainFindIdx key l = some i →
      i < l.length ∧ l.find? (keyMatches key) = some (l.getD i default) ∧
        (l.getD i default).1 = key := by
  intro l
  induction l with
  | nil => intro i h; cases h
  | cons e rest ih =>
    intro i h
    rw [chainFindIdx] at h
    by_cases he : e.1 = key
    · rw [if_pos he] at h
      cases h
      refine ⟨Nat.succ_pos _, ?_, by simpa using he⟩
      rw [List.find?_cons, keyMatches_eq_true.2 he]
      rfl
    · rw [if_neg he] at h
      obtain ⟨j, hj, rfl⟩ := Option.map_eq_some'.1 h
      obtain ⟨hjlen, hjfind, hjkey⟩ := ih hj
      refine ⟨by simpa using Nat.succ_lt_succ hjlen, ?_, by simpa using hjkey⟩
      rw [List.find?_cons]
      have : keyMatches key e = false := by simp [keyMatches, he]
      simp only [this]
      simpa using hjfind

/-- `find` returns the end iterator exactly when `at` fails. -/
theorem find_eq_endIter_iff {m : HashMap K V} (hpos : 0 < m.data.length) (k : K) :
    m.find k = m.endIter ↔ m.atKey k = none := by
  rw [find]
  cases hscan : chainFindIdx k (m.data.getD (m.bucketIndex k) []) with
  | none =>
    simp only [iff_true]
    rw [atKey, (chainFindIdx_eq_none_iff k _).1 hscan]
    simp
  | some p =>
    simp only
    constructor
    · intro hend
      have : m.bucketIndex k = m.data.length := congrArg Iter.bucketPos hend
      exact absurd this (Nat.ne_of_lt (bucketIndex_lt m hpos k))
    · intro habs
      rw [atKey, Option.map_eq_none'] at habs
      rw [(chainFindIdx_eq_none_iff k _).2 habs] at hscan
      cases hscan

/-- Dereferencing the iterator returned by a successful `find` yields the
stored entry. -/
theorem deref_find {m : HashMap K V} {k : K} {v : V}
    (hv : m.atKey k = some v) : m.deref (m.find k) = (k, v) := by
  rw [atKey] at hv
  obtain ⟨e, he, hev⟩ := Option.map_eq_some'.1 hv
  have hek : e.1 = k := keyMatches_eq_true.1 (List.find?_some he)
  have hkv : e = (k, v) := by cases e; simp_all
  rw [find]
  cases hscan : chainFindIdx k (m.data.getD (m.bucketIndex k) []) with
  | none =>
    rw [(chainFindIdx_eq_none_iff k _).1 hscan] at he
    cases he
  | some p =>
    obtain ⟨hplen, hpfind, hpkey⟩ := chainFindIdx_some_spec _ hscan
    rw [he] at hpfind
    rw [deref]
    simp only
    rw [← hkv]
    exact (Option.some.inj hpfind).symm

/-- `operator[]` on a present key: no mutation, and the returned reference
holds the stored value. -/
theorem indexAccess_present {m : HashMap K V} (hm : m.WF) {k : K} {v : V}
    (hv : m.atKey k = some v) :
    (m.indexAccess k).1 = v ∧ (m.indexAccess k).2 = m := by
  have hne : ¬(m.find k = m.endIter) := by
    rw [find_eq_endIter_iff hm.1.1 k, hv]
    simp
  rw [indexAccess, if_neg hne]
  exact ⟨by rw [deref_find hv], rfl⟩

/-- `operator[]` on an absent key: a default-constructed value is
inserted (growing `size` by one) and returned. -/
theorem indexAccess_absent {m : HashMap K V} (hm : m.WF) {k : K}
    (habs : m.atKey k = none) :
    (m.indexAccess k).1 = (default : V) ∧
    (m.indexAccess k).2 = m.insert (k, default) ∧
    (m.indexAccess k).2.keyCount = m.keyCount + 1 ∧
    (m.indexAccess k).2.atKey k = some (default : V) ∧
    (m.indexAccess k).2.WF := by
  have hend : m.find k = m.endIter := (find_eq_endIter_iff hm.1.1 k).2 habs
  rw [indexAccess, if_pos hend]
  obtain ⟨hwf', -, hcount', hat', -⟩ := insert_absent hm (default : V) habs
  refine ⟨?_, rfl, hcount', hat', hwf'⟩
  show ((m.insert (k, default)).deref ((m.insert (k, default)).find k)).2 = default
  rw [deref_find hat']

/-! ## Iteration -/

theorem skipEmptyFrom_ge {m : HashMap K V} {b : Nat} (h : m.data.length ≤ b) :
    skipEmptyFrom m b = ⟨m.data.length, 0⟩ := by
  rw [skipEmptyFrom, dif_neg (by omega)]

theorem iterFrom_endIter (m : HashMap K V) (fuel : Nat) :
    m.iterFrom fuel (m.endIter) = [] := by
  cases fuel with
  | zero => rfl
  | succ f => rw [iterFrom, if_pos rfl]

/-- Iterating from a mid-chain position emits the rest of that chain and
then everything in the later buckets, provided iterating from the
bucket-skip of the next bucket is already understood. -/
theorem iterFrom_mid_aux (m : HashMap K V) (b : Nat) (hb : b < m.data.length)
    (hskip : ∀ fuel, ((m.data.drop (b + 1)).flatten).length ≤ fuel →
      m.iterFrom fuel (skipEmptyFrom m (b + 1)) = (m.data.drop (b + 1)).flatten) :
    ∀ d e, (m.data.getD b []).length - e = d → e < (m.data.getD b []).length →
      ∀ fuel, ((m.data.getD b []).length - e) + ((m.data.drop (b + 1)).flatten).length ≤ fuel →
        m.iterFrom fuel ⟨b, e⟩ =
          ((m.data.getD b []).drop e) ++ (m.data.drop (b + 1)).flatten := by
  intro d
  induction d with
  | zero =>
    intro e hd he _ _
    omega
  | succ d ih =>
    intro e hd he fuel hfuel
    have hone : 1 ≤ (m.data.getD b []).length - e := by omega
    cases fuel with
    | zero => omega
    | succ f =>
      rw [iterFrom]
      have hnotend : ¬((⟨b, e⟩ : Iter) = m.endIter) := by
        rw [endIter]
        intro hcon
        have : b = m.data.length := congrArg Iter.bucketPos hcon
        omega
      rw [if_neg hnotend]
      have hderef : m.deref ⟨b, e⟩ = (m.data.getD b [])[e] := by
        rw [deref]
        exact getD_of_lt _ he _
      have hnext : m.iterNext ⟨b, e⟩ =
          if e + 1 < (m.data.getD b []).length then ⟨b, e + 1⟩
          else skipEmptyFrom m (b + 1) := by
        rw [iterNext]
        simp only
        rw [if_neg (by omega)]
      by_cases hcase : e + 1 < (m.data.getD b []).length
      · rw [hnext, if_pos hcase]
        rw [ih (e + 1) (by omega) hcase f (by omega)]
        rw [hderef, List.drop_eq_getElem_cons he, List.cons_append]
      · have hlast : e + 1 = (m.data.getD b []).length := by omega
        rw [hnext, if_neg hcase]
        rw [hskip f (by omega)]
        rw [hderef, List.drop_eq_getElem_cons he, List.cons_append]
        have : (m.data.getD b []).drop (e + 1) = [] :=
          List.drop_eq_nil_of_le (by omega)
        rw [this, List.nil_append]

/-- Iterating from the bucket-skip of position `b` emits exactly the
entries of buckets `b, b+1, …` in order, with any fuel at least their
number. -/
theorem iterFrom_skipEmptyFrom (m : HashMap K V) :
    ∀ n b, m.data.length - b ≤ n →
      ∀ fuel, ((m.data.drop b).flatten).length ≤ fuel →
        m.iterFrom fuel (skipEmptyFrom m b) = (m.data.drop b).flatten := by
  intro n
  induction n with
  | zero =>
    intro b hb fuel _
    have hble : m.data.length ≤ b := by omega
    rw [skipEmptyFrom_ge hble]
    rw [List.drop_eq_nil_of_le hble]
    exact iterFrom_endIter m fuel
  | succ n ih =>
    intro b hb fuel hfuel
    by_cases hblt : b < m.data.length
    · have hdrop : m.data.drop b = m.data[b] :: m.data.drop (b + 1) :=
        List.drop_eq_getElem_cons hblt
      have hchain : m.data.getD b [] = m.data[b] := getD_of_lt _ hblt []
      rw [skipEmptyFrom, dif_pos hblt]
      by_cases hemp : (m.data.getD b []).isEmpty
      · rw [if_pos hemp]
        have hnil : m.data[b] = [] := by
          rw [← hchain]
          exact List.isEmpty_iff.1 hemp
        have hflat : (m.data.drop b).flatten = (m.data.drop (b + 1)).flatten := by
          rw [hdrop, List.flatten_cons, hnil]
          rfl
        rw [hflat] at hfuel ⊢
        exact ih (b + 1) (by omega) fuel hfuel
      · rw [if_neg hemp]
        have hlenpos : 0 < (m.data.getD b []).length := by
          cases hcn : m.data.getD b [] with
          | nil => rw [hcn] at hemp; exact absurd rfl hemp
          | cons x xs => simp [hcn]
        have hflat : (m.data.drop b).flatten =
            m.data.getD b [] ++ (m.data.drop (b + 1)).flatten := by
          rw [hdrop, List.flatten_cons, hchain]
        have hres := iterFrom_mid_aux m b hblt (ih (b + 1) (by omega))
          ((m.data.getD b []).length) 0 (by omega) hlenpos fuel
          (by rw [hflat] at hfuel; simp only [List.length_append] at hfuel; omega)
        rw [hres]
        rw [List.drop_zero, ← hflat]
    · have hble : m.data.length ≤ b := by omega
      rw [skipEmptyFrom_ge hble, List.drop_eq_nil_of_le hble]
      exact iterFrom_endIter m fuel

/-- Iterating from `begin()` with sufficient fuel yields exactly the flat
sequence of stored entries, bucket by bucket, skipping empty buckets. -/
theorem iterFrom_beginIter (m : HashMap K V) (fuel : Nat)
    (hfuel : m.data.flatten.length ≤ fuel) :
    m.iterFrom fuel m.beginIter = m.data.flatten := by
  have := iterFrom_skipEmptyFrom m m.data.length 0 (by omega) fuel (by simpa using hfuel)
  simpa [beginIter] using this

theorem skipEmptyFrom_all_empty {m : HashMap K V} (hall : ∀ l ∈ m.data, l = []) :
    ∀ n b, m.data.length - b ≤ n → skipEmptyFrom m b = ⟨m.data.length, 0⟩ := by
  intro n
  induction n with
  | zero =>
    intro b hb
    exact skipEmptyFrom_ge (by omega)
  | succ n ih =>
    intro b hb
    by_cases hblt : b < m.data.length
    · rw [skipEmptyFrom, dif_pos hblt]
      have : m.data.getD b [] = [] := by
        rw [getD_of_lt _ hblt []]
        exact hall _ (List.getElem_mem hblt)
      rw [if_pos (by rw [this]; rfl)]
      exact ih (b + 1) (by omega)
    · exact skipEmptyFrom_ge (by omega)

/-- On an empty map, `begin()` equals `end()`. -/
theorem beginIter_eq_endIter_of_empty {m : HashMap K V} (hm : m.WFc)
    (hz : m.keyCount = 0) : m.beginIter = m.endIter := by
  have hflat : m.data.flatten = [] := by
    have := hm.2.1
    rw [hz] at this
    exact List.length_eq_zero.1 this.symm
  have hall : ∀ l ∈ m.data, l = [] := by
    intro l hl
    rcases List.eq_nil_or_concat l with rfl | ⟨xs, x, rfl⟩
    · rfl
    · have : x ∈ m.data.flatten := List.mem_flatten.2 ⟨_, hl, by simp⟩
      rw [hflat] at this
      cases this
  rw [beginIter, endIter]
  exact skipEmptyFrom_all_empty hall m.data.length 0 (by omega)

/-- On an absent key, `insert` is the check-free append followed by the
grow test `keyCount >= data.size()`. -/
theorem insert_split {m : HashMap K V} {v : K × V}
    (hany : (m.data.getD (m.bucketIndex v.1) []).any (keyMatches v.1) = false) :
    m.insert v =
      if (m.insertCore v).data.length ≤ (m.insertCore v).keyCount then
        (m.insertCore v).rehash (newCapacity ((m.insertCore v).keyCount))
      else m.insertCore v := by
  rw [insert, insertCore]
  simp only [hany, Bool.false_eq_true, if_false]

/-- The `insert` body never changes the number of buckets. -/
theorem insertCore_data_length (m : HashMap K V) (v : K × V) :
    (m.insertCore v).data.length = m.data.length := by
  rw [insertCore]
  split
  · rfl
  · simp [List.length_set]

/-- Every intermediate state of a reinsertion loop keeps the bucket count
of the fresh table. -/
theorem foldl_insertCore_data_length (l : List (K × V)) (m : HashMap K V) :
    (l.foldl insertCore m).data.length = m.data.length := by
  induction l generalizing m with
  | nil => rfl
  | cons v l ih => rw [List.foldl_cons, ih, insertCore_data_length]

/-! ## Concrete states used as witnesses -/

/-- The identity hash on naturals, standing in for `std::hash<size_t>`. -/
def natHash : Nat → Nat := fun n => n

/-- A small well-formed state: one entry `(0, 5)` in the first of two
buckets. -/
def sampleMap : HashMap Nat Nat := ⟨natHash, [[(0, 5)], []], 1⟩

/-- A well-formed state with two entries spread over three buckets. -/
def sampleMap2 : HashMap Nat Nat := ⟨natHash, [[(3, 4)], [(1, 9)], []], 2⟩

/-- The state reached from the default constructor by `insert(0, 0)` (which
grow-rehashes to two buckets) and then `erase(0)`. -/
def c7State : HashMap Nat Nat := ((mkEmpty natHash).insert (0, 0)).erase 0

/-! ## The specification claims -/

/-- Claim C1: for every map state and every key `k`, if `k` is already
present with stored value `v1` then `insert(k, v2)` is a no-op — the
stored value for `k` remains `v1` (first write wins) and `size()` is
unchanged; if `k` is absent, `insert` appends a new entry for `(k, v2)`
and increments `size()` by exactly one. -/
theorem claim_C1 (m : HashMap K V) (k : K) (v₁ v₂ : V) (hm : m.WF) :
    (m.atKey k = some v₁ →
      m.insert (k, v₂) = m ∧ (m.insert (k, v₂)).atKey k = some v₁ ∧
      (m.insert (k, v₂)).size = m.size) ∧
    (m.atKey k = none →
      (m.insert (k, v₂)).size = m.size + 1 ∧
      (m.insert (k, v₂)).atKey k = some v₂) := by
  constructor
  · intro hv
    have hnoop : m.insert (k, v₂) = m := insert_present (by simp [hv])
    exact ⟨hnoop, by rw [hnoop, hv], by rw [hnoop]⟩
  · intro habs
    obtain ⟨-, -, hcount, hat, -⟩ := insert_absent hm v₂ habs
    exact ⟨hcount, hat⟩

theorem claim_C1_witness :
    (sampleMap.insert (0, 9) = sampleMap ∧
      (sampleMap.insert (0, 9)).atKey 0 = some 5) ∧
    ((sampleMap.insert (1, 7)).size = sampleMap.size + 1 ∧
      (sampleMap.insert (1, 7)).atKey 1 = some 7) := by
  constructor
  · have h := (claim_C1 sampleMap 0 5 9 (by decide)).1 (by decide)
    exact ⟨h.1, h.2.1⟩
  · exact (claim_C1 sampleMap 1 5 7 (by decide)).2 (by decide)

/-- Claim C2: after every call to `insert` completes — including the grow
rehash it triggers to new capacity `floor(size * GROWTH_FACTOR) + 1`
whenever `size ≥ capacity` after the entry is added — the map satisfies
`size() < capacity`. -/
theorem claim_C2 (m : HashMap K V) (v : K × V) (hm : m.WF) :
    (m.insert v).size < (m.insert v).capacity ∧
    (m.atKey v.1 = none →
      m.insert v =
        if (m.insertCore v).capacity ≤ (m.insertCore v).size then
          (m.insertCore v).rehash (newCapacity ((m.insertCore v).size))
        else m.insertCore v) := by
  refine ⟨(wf_insert hm v).2, fun habs => ?_⟩
  exact insert_split ((chainAny_eq_false_iff m v.1).2 habs)

theorem claim_C2_witness :
    (sampleMap.insert (1, 3)).size < (sampleMap.insert (1, 3)).capacity :=
  (claim_C2 sampleMap (1, 3) (by decide)).1

/-- Claim C3: for every well-formed map state, iterating from `begin()`
to `end()` via repeated advance yields exactly the `size()` live entries
of the map (the flat bucket-by-bucket sequence), each entry exactly once,
skipping empty buckets; on an empty map `begin()` equals `end()`. -/
theorem claim_C3 (m : HashMap K V) (hm : m.WF) (fuel : Nat)
    (hfuel : m.size ≤ fuel) :
    m.iterFrom fuel m.beginIter = m.data.flatten ∧
    (m.iterFrom fuel m.beginIter).length = m.size ∧
    ((m.iterFrom fuel m.beginIter).map Prod.fst).Nodup ∧
    (m.size = 0 → m.beginIter = m.endIter) := by
  have hcount : m.keyCount = m.data.flatten.length := hm.1.2.1
  have hsz : m.size = m.keyCount := rfl
  have h1 := iterFrom_beginIter m fuel (by omega)
  refine ⟨h1, by rw [h1]; exact hcount.symm, by rw [h1]; exact hm.1.2.2.1, ?_⟩
  intro hz
  exact beginIter_eq_endIter_of_empty hm.1 hz

theorem claim_C3_witness :
    sampleMap2.iterFrom 2 sampleMap2.beginIter = sampleMap2.data.flatten ∧
    (sampleMap2.iterFrom 2 sampleMap2.beginIter).length = sampleMap2.size :=
  ⟨(claim_C3 sampleMap2 (by decide) 2 (by decide)).1,
    (claim_C3 sampleMap2 (by decide) 2 (by decide)).2.1⟩

/-- Claim C4: for every map state and key `k`, `at(k)` returns the stored
value for `k` when present (first-match lookup over the stored entries)
and fails with NotFound (here: `none`) exactly when `k` is absent.  In
the embedding `atKey` is a pure function of the map — it cannot mutate —
and every other operation is a total function into `HashMap`, so the
NotFound outcome arises from `at` alone. -/
theorem claim_C4 (m : HashMap K V) (k : K) (hm : m.WF) :
    m.atKey k = (m.data.flatten.find? (keyMatches k)).map Prod.snd ∧
    (m.atKey k = none ↔ k ∉ m.data.flatten.map Prod.fst) ∧
    (∀ v, m.atKey k = some v ↔ (k, v) ∈ m.data.flatten) :=
  ⟨atKey_eq_flatten_find? hm.1 k, atKey_eq_none_iff hm.1 k,
    fun v => atKey_eq_some_iff hm.1 k v⟩

theorem claim_C4_witness :
    sampleMap.atKey 0 =
      (sampleMap.data.flatten.find? (keyMatches 0)).map Prod.snd ∧
    (sampleMap.atKey 7 = none ↔ 7 ∉ sampleMap.data.flatten.map Prod.fst) :=
  ⟨(claim_C4 sampleMap 0 (by decide)).1, (claim_C4 sampleMap 7 (by decide)).2.1⟩

/-- Claim C5: `indexAccess(k)` (`operator[]`) never fails: when `k` is
present it returns the stored value and leaves the map (hence `size()`)
unchanged; when `k` is absent it inserts `(k, default)` — raising
`size()` by one — and returns the default value; in particular on an
empty map it returns the default value and raises `size()` to 1. -/
theorem claim_C5 (m : HashMap K V) (k : K) (hm : m.WF) :
    (∀ v, m.atKey k = some v →
      (m.indexAccess k).1 = v ∧ (m.indexAccess k).2 = m ∧
      (m.indexAccess k).2.size = m.size) ∧
    (m.atKey k = none →
      (m.indexAccess k).1 = (default : V) ∧
      (m.indexAccess k).2 = m.insert (k, default) ∧
      (m.indexAccess k).2.size = m.size + 1 ∧
      (m.indexAccess k).2.atKey k = some (default : V)) := by
  constructor
  · intro v hv
    obtain ⟨h1, h2⟩ := indexAccess_present hm hv
    exact ⟨h1, h2, by rw [h2]⟩
  · intro habs
    obtain ⟨h1, h2, h3, h4, -⟩ := indexAccess_absent hm habs
    exact ⟨h1, h2, h3, h4⟩

theorem claim_C5_witness :
    ((sampleMap.indexAccess 0).1 = 5 ∧ (sampleMap.indexAccess 0).2 = sampleMap) ∧
    ((mkEmpty natHash : HashMap Nat Nat).indexAccess 5).1 = 0 ∧
    ((mkEmpty natHash : HashMap Nat Nat).indexAccess 5).2.size = 1 := by
  refine ⟨?_, ?_, ?_⟩
  · have h := (claim_C5 sampleMap 0 (by decide)).1 5 (by decide)
    exact ⟨h.1, h.2.1⟩
  · exact ((claim_C5 (K := Nat) (V := Nat) (mkEmpty natHash) 5 (by decide)).2
      (by decide)).1
  · have h := ((claim_C5 (K := Nat) (V := Nat) (mkEmpty natHash) 5 (by decide)).2
      (by decide)).2.2.1
    rw [h]
    rfl

/-- Claim C6: for every map state and key `k` present in the map,
`erase(k)` removes exactly the entry for `k` (it no longer reads back,
all other keys are untouched) and decrements `size()` by one, and it
triggers a rehash to capacity `floor(size * GROWTH_FACTOR) + 1` if and
only if `size * SHRINK_FACTOR` (`SHRINK_FACTOR = GROWTH_FACTOR²`) is
strictly less than the post-removal length of the one chain that was just
modified; `erase(k)` for an absent `k` is a no-op. -/
theorem claim_C6 (m : HashMap K V) (k : K) (hm : m.WF) :
    (m.atKey k = none → m.erase k = m) ∧
    (∀ v, m.atKey k = some v →
      (m.erase k).size + 1 = m.size ∧
      (m.erase k).atKey k = none ∧
      (∀ k', k' ≠ k → (m.erase k).atKey k' = m.atKey k') ∧
      (shrinkNeeded (m.size - 1)
          ((m.data.getD (m.bucketIndex k) []).eraseP (keyMatches k)).length →
        m.erase k = (m.eraseCore k).rehash (newCapacity (m.size - 1))) ∧
      (¬shrinkNeeded (m.size - 1)
          ((m.data.getD (m.bucketIndex k) []).eraseP (keyMatches k)).length →
        m.erase k = m.eraseCore k)) := by
  refine ⟨fun habs => erase_absent habs, fun v hv => ?_⟩
  obtain ⟨-, -, hcnt, hatn, hframe⟩ := erase_present hm hv
  have hany : (m.data.getD (m.bucketIndex k) []).any (keyMatches k) = true :=
    (chainAny_iff_atKey_isSome m k).2 (by simp [hv])
  refine ⟨hcnt, hatn, hframe, ?_, ?_⟩
  · intro hs
    have hs' : shrinkNeeded (m.keyCount - 1)
        ((m.data.getD (m.bucketIndex k) []).eraseP (keyMatches k)).length := hs
    show m.erase k = (m.eraseCore k).rehash (newCapacity (m.keyCount - 1))
    rw [erase_split hany, if_pos hs']
  · intro hs
    have hs' : ¬shrinkNeeded (m.keyCount - 1)
        ((m.data.getD (m.bucketIndex k) []).eraseP (keyMatches k)).length := hs
    rw [erase_split hany, if_neg hs']

theorem claim_C6_witness :
    (sampleMap.erase 7 = sampleMap) ∧
    ((sampleMap.erase 0).size + 1 = sampleMap.size ∧
      (sampleMap.erase 0).atKey 0 = none ∧
      sampleMap.erase 0 = sampleMap.eraseCore 0) := by
  refine ⟨(claim_C6 sampleMap 7 (by decide)).1 (by decide), ?_⟩
  have h := (claim_C6 sampleMap 0 (by decide)).2 5 (by decide)
  exact ⟨h.1, h.2.1, h.2.2.2.2 (by decide)⟩

/-- Claim C7 (amended): in every reachable map state `capacity ≥ 1`
holds, and a freshly constructed or freshly cleared map has capacity 1
and zero entries.  (The original claim that *every* empty reachable state
has capacity 1 is refuted by `claim_C7_counterexample`: erasing the last
entry does not shrink the table back to one bucket.) -/
theorem claim_C7_amended :
    (∀ m : HashMap K V, Reachable m → 1 ≤ m.capacity) ∧
    (∀ h : K → Nat, (mkEmpty h : HashMap K V).capacity = 1 ∧
      (mkEmpty h : HashMap K V).size = 0) ∧
    (∀ m : HashMap K V, m.clear.capacity = 1 ∧ m.clear.size = 0) :=
  ⟨fun _ hr => (reachable_wf hr).1.1, fun _ => ⟨rfl, rfl⟩, fun _ => ⟨rfl, rfl⟩⟩

theorem claim_C7_witness :
    1 ≤ c7State.capacity ∧ (mkEmpty natHash : HashMap Nat Nat).capacity = 1 :=
  ⟨claim_C7_amended.1 c7State
      (Reachable.erase_step 0 (Reachable.insert_step (0, 0) (Reachable.mk_empty natHash))),
    (claim_C7_amended.2.1 natHash).1⟩

/-- Claim C7 fails as stated: `c7State`, reached from the default
constructor by one insert and one erase, is empty but has capacity 2, not
1 — the shrink check `0 * SHRINK_FACTOR < 0` is false, so erasing the
last entry leaves the grown two-bucket table in place. -/
theorem claim_C7_counterexample :
    Reachable c7State ∧ c7State.size = 0 ∧ c7State.capacity = 2 ∧
      ¬(c7State.capacity = 1) :=
  ⟨Reachable.erase_step 0 (Reachable.insert_step (0, 0) (Reachable.mk_empty natHash)),
    by decide, by decide, by decide⟩

/-- Claim C8: for every map state in which key `k` is present with some
value, performing `erase(k)` followed by `insert(k, v2)` yields a map
where `at(k) = v2` and `size()` equals its value from before the erase,
regardless of the intermediate shrink or grow rehashes. -/
theorem claim_C8 (m : HashMap K V) (k : K) (v₁ v₂ : V) (hm : m.WF)
    (hv : m.atKey k = some v₁) :
    ((m.erase k).insert (k, v₂)).atKey k = some v₂ ∧
    ((m.erase k).insert (k, v₂)).size = m.size := by
  obtain ⟨hwf', -, hcount', hat', -⟩ := erase_present hm hv
  obtain ⟨-, -, hcount'', hat'', -⟩ := insert_absent hwf' v₂ hat'
  refine ⟨hat'', ?_⟩
  show ((m.erase k).insert (k, v₂)).keyCount = m.keyCount
  omega

theorem claim_C8_witness :
    ((sampleMap.erase 0).insert (0, 9)).atKey 0 = some 9 ∧
    ((sampleMap.erase 0).insert (0, 9)).size = sampleMap.size :=
  claim_C8 sampleMap 0 5 9 (by decide) (by decide)

/-- Claim C9: `bucketIndex(key) = hash(key) mod capacity` never divides
by zero: every reachable state (hence the entry state of `insert`,
`erase`, `find`, `indexAccess` and `at`) has a positive bucket count,
every internal rehash target `newCapacity k` is positive, and every
intermediate state of a rehash reinsertion loop keeps the positive bucket
count of its fresh table. -/
theorem claim_C9 :
    (∀ m : HashMap K V, Reachable m → 0 < m.capacity) ∧
    (∀ k : Nat, 0 < newCapacity k) ∧
    (∀ (h : K → Nat) (c : Nat) (pfx : List (K × V)),
      (pfx.foldl insertCore (⟨h, List.replicate c [], 0⟩ : HashMap K V)).capacity = c) :=
  ⟨fun _ hr => (reachable_wf hr).1.1, newCapacity_pos,
    fun h c pfx => by
      show (pfx.foldl insertCore _).data.length = c
      rw [foldl_insertCore_data_length]
      simp⟩

theorem claim_C9_witness :
    0 < c7State.capacity ∧ 0 < newCapacity 3 ∧
    (([(1, 2), (5, 6)] : List (Nat × Nat)).foldl insertCore
      (⟨natHash, List.replicate 4 [], 0⟩ : HashMap Nat Nat)).capacity = 4 :=
  ⟨(claim_C9 (K := Nat) (V := Nat)).1 c7State
      (Reachable.erase_step 0 (Reachable.insert_step (0, 0) (Reachable.mk_empty natHash))),
    (claim_C9 (K := Nat) (V := Nat)).2.1 3,
    (claim_C9 (K := Nat) (V := Nat)).2.2 natHash 4 [(1, 2), (5, 6)]⟩

/-- Claim C10: inserting a new key `k` leaves every other key's mapping
unchanged — for every `k' ≠ k`, `at(k')` returns the same value after
`insert(k, v)` as before, even when the insert triggers a grow rehash. -/
theorem claim_C10 (m : HashMap K V) (k : K) (v : V) (k' : K) (hm : m.WF)
    (hnew : m.atKey k = none) (hne : k' ≠ k) :
    (m.insert (k, v)).atKey k' = m.atKey k' :=
  (insert_absent hm v hnew).2.2.2.2 k' hne

theorem claim_C10_witness :
    (sampleMap.insert (1, 3)).atKey 0 = sampleMap.atKey 0 :=
  claim_C10 sampleMap 1 3 0 (by decide) (by decide) (by decide)

end HashMap

end Task1
